import Mathlib

/-!
Verification of the course-crawler repository (crawler.py, util.py, search.py).

The Python modules are shallowly embedded here: pure string and URL helpers
become Lean functions, the BeautifulSoup page structure is modelled by the
`Card`/`SeqBlock`/`Page` structures (each field holding exactly the text that
the corresponding extraction call of the source returns), the mutable Python
dicts become association lists, and code that can raise an uncaught exception
returns `Except Unit`.  The crawl loop of `go` is written as a fuel-indexed
recursion over an explicit `CrawlState`.
-/

namespace CourseCrawler

/-! ## Character and string helpers

`lowerChar`/`lowerStr` model Python `str.lower` on the alphabet that the
crawler handles: ASCII plus the Latin-1 accented letters appearing in the
word regex (`Á`–`Ú` / `á`–`ú`); `×` (U+00D7) is not a letter and stays fixed. -/

def lowerChar (c : Char) : Char :=
  if ('A' ≤ c && c ≤ 'Z') || (('Á' ≤ c && c ≤ 'Ú') && c ≠ '×') then
    Char.ofNat (c.toNat + 32)
  else c

def lowerStr (s : String) : String :=
  String.mk (s.data.map lowerChar)

/-! ## Tokenization

Model of `word_pattern = re.compile(r"\b[A-Za-zÁ-Úá-ú][A-Za-z0-9Á-Úá-ú_]+(?<![!:.])\b")`
from crawler.py.  The lookbehind is vacuous (the character class contains none
of `!:.`), so on text whose characters are either in the class below or
non-word characters (spaces, punctuation), `findall` returns exactly the
maximal runs of class characters that start with a letter and have length
at least two. -/

def isAccented (c : Char) : Bool :=
  ('Á' ≤ c && c ≤ 'Ú') || ('á' ≤ c && c ≤ 'ú')

def isLetterChar (c : Char) : Bool :=
  c.isAlpha || isAccented c

def isWordChar (c : Char) : Bool :=
  c.isAlpha || c.isDigit || isAccented c || c == '_'

def splitRunsAux : List Char → List Char → List (List Char)
  | [], cur => if cur.isEmpty then [] else [cur.reverse]
  | c :: cs, cur =>
    if isWordChar c then splitRunsAux cs (c :: cur)
    else if cur.isEmpty then splitRunsAux cs []
    else cur.reverse :: splitRunsAux cs []

def splitRuns (l : List Char) : List (List Char) :=
  splitRunsAux l []

def tokenize (s : String) : List String :=
  (splitRuns s.data).filterMap fun run =>
    match run with
    | c :: _ :: _ => if isLetterChar c then some (String.mk run) else none
    | _ => none

/-! ## URL helpers (util.py plus a model of `urllib.parse`)

`splitScheme`, `splitNetloc`, `urlNetloc`, `urlPath` model `urlparse`;
`urljoin` models `urllib.parse.urljoin` for the reference classes the crawler
meets (absolute URLs, opaque non-relative schemes such as `mailto:`, network-,
absolute- and relative-path references); dot-segment normalization is not
performed. -/

def isSchemeChar (c : Char) : Bool :=
  c.isAlpha || c.isDigit || c == '+' || c == '-' || c == '.'

def splitScheme (s : String) : Option String × String :=
  match s.data with
  | [] => (none, s)
  | c :: _ =>
    if c.isAlpha then
      let pre := s.data.takeWhile isSchemeChar
      match s.data.drop pre.length with
      | ':' :: r => (some (String.mk pre), String.mk r)
      | _ => (none, s)
    else (none, s)

/-- Structural model of `String.startsWith` (list-based so that proofs can
evaluate it). -/
def strStarts (s pre : String) : Bool :=
  List.isPrefixOf pre.data s.data

/-- Structural model of `String.endsWith`. -/
def strEnds (s suf : String) : Bool :=
  List.isSuffixOf suf.data s.data

def strDrop (s : String) (n : Nat) : String :=
  String.mk (s.data.drop n)

def strHasChar (s : String) (c : Char) : Bool :=
  s.data.contains c

def splitNetloc (rest : String) : String × String :=
  if strStarts rest "//" then
    let after := strDrop rest 2
    let nl := after.data.takeWhile fun c => c ≠ '/' && c ≠ '?' && c ≠ '#'
    (String.mk nl, strDrop after nl.length)
  else ("", rest)

def urlNetloc (url : String) : String :=
  (splitNetloc (splitScheme url).2).1

def urlPath (url : String) : String :=
  let rest2 := (splitNetloc (splitScheme url).2).2
  String.mk (rest2.data.takeWhile fun c => c ≠ '?' && c ≠ '#')

/-- Schemes of `urllib.parse.uses_relative` that matter here (the empty
scheme included). -/
def USES_RELATIVE : List String :=
  ["", "ftp", "http", "https", "file", "ws", "wss"]

/-- The part of a path up to and including its last `/` (empty if none). -/
def dirOf (p : String) : String :=
  String.mk ((p.data.reverse.dropWhile fun c => c ≠ '/').reverse)

def urljoin (base url : String) : String :=
  if url == "" then base
  else if base == "" then url
  else
    let bs := ((splitScheme base).1).getD ""
    let us := ((splitScheme url).1).getD bs
    if us ≠ bs ∨ ¬ USES_RELATIVE.contains us then url
    else
      let urest := (splitScheme url).2
      let schemePre := if us == "" then "" else us ++ ":"
      if strStarts urest "//" then schemePre ++ urest
      else if urest == "" then base
      else
        let bnl := urlNetloc base
        let netPre := if bnl == "" then "" else "//" ++ bnl
        if strStarts urest "/" then schemePre ++ netPre ++ urest
        else
          let merged := dirOf (urlPath base) ++ urest
          let path2 := if bnl ≠ "" && ¬ strStarts merged "/" then "/" ++ merged else merged
          schemePre ++ netPre ++ path2

/-- util.is_absolute_url: `bool(urlparse(url).netloc)`. -/
def is_absolute_url (url : String) : Bool :=
  urlNetloc url ≠ ""

/-- util.convert_if_relative_url. -/
def convert_if_relative_url (url1 url2 : String) : Option String :=
  if ¬ is_absolute_url url2 then some (urljoin url1 url2) else none

def strContainsAux (sub : List Char) : List Char → Bool
  | [] => sub.isEmpty
  | c :: cs => if List.isPrefixOf sub (c :: cs) then true else strContainsAux sub cs

/-- Python `sub in s` for strings. -/
def strContains (s sub : String) : Bool :=
  strContainsAux sub.data s.data

/-- Python `path.split("/")[-1]`: everything after the last slash. -/
def lastSegment (path : String) : String :=
  String.mk (path.data.reverse.takeWhile fun c => c ≠ '/').reverse

/-- util.is_url_ok_to_follow. -/
def is_url_ok_to_follow (url domain : String) : Bool :=
  if ¬ strStarts url "http" then false
  else if urlNetloc url ≠ domain then false
  else if strHasChar url '@' || strContains url "mailto:" then false
  else
    let path := urlPath url
    if strEnds path "/" || strEnds path ".html" then true
    else if ¬ strHasChar (lastSegment path) '.' then true
    else false

def START_URL : String :=
  "https://educacionvirtual.javeriana.edu.co/nuestros-programas-nuevo"

def DOMAIN : String :=
  "educacionvirtual.javeriana.edu.co"

/-! ## Page model

A `Card` stands for one `div.card-body` element: `title` is what
`util.extract_course_title` returns for it (text of the first `b.card-title`
descendant, stripped; `""` when absent), `desc` what
`util.extract_course_description` returns (stripped texts of all `p.card-text`
descendants joined by single spaces; `""` when absent), `seqs` the nested
`div` elements found by `util.find_sequence`, each with its own extracted
title and description, and `href` the `href` of the first descendant anchor
carrying one (`card.find("a", href=True)`), if any.  A `Page` is a fetched
document: the `href`s of all its anchors and its card blocks. -/

structure SeqBlock where
  title : String
  desc : String
deriving DecidableEq

structure Card where
  title : String
  desc : String
  seqs : List SeqBlock
  href : Option String
deriving DecidableEq

structure Page where
  links : List String
  cards : List Card
deriving DecidableEq

/-! ## Association-list dictionaries (Python `dict` with string keys) -/

abbrev Index := List (String × List String)
abbrev Urls := List (String × String)

def hasKey {α : Type} (l : List (String × α)) (k : String) : Bool :=
  l.any fun p => p.1 == k

def getD (idx : Index) (k : String) : List String :=
  (idx.lookup k).getD []

def updateEntry {α : Type} : List (String × α) → String → (α → α) → List (String × α)
  | [], _, _ => []
  | (k', v) :: rest, k, f =>
    if k' == k then (k', f v) :: rest else (k', v) :: updateEntry rest k f

def ensureKey (idx : Index) (k : String) : Index :=
  if hasKey idx k then idx else idx ++ [(k, [])]

/-- `for word in ws: if word not in index[cid]: index[cid].append(word)`. -/
def addWords (idx : Index) (cid : String) (ws : List String) : Index :=
  ws.foldl
    (fun acc w =>
      if (getD acc cid).contains w then acc
      else updateEntry acc cid (fun v => v ++ [w]))
    idx

/-! ## crawler.identify_common_words -/

def COMMON_WORDS : List String :=
  ["hora", "horas", "duración", "precio", "de", "la", "al", "el", "en", "su", "con"]

/-- The concatenation `combined_text += course_title + " " + description`
over all card blocks (no separator between successive cards, as in the
source). -/
def combinedText (cards : List Card) : String :=
  cards.foldl (fun acc c => acc ++ c.title ++ " " ++ c.desc) ""

def pageTokens (cards : List Card) : List String :=
  tokenize (lowerStr (combinedText cards))

def identify_common_words (cards : List Card) (threshold : Nat := 10) : List String :=
  ((pageTokens cards).dedup.filter fun w => threshold ≤ (pageTokens cards).count w)
    ++ COMMON_WORDS

/-! ## crawler.build_index -/

/-- `combined_text` of the outer card: the title, extended with the
description of the card itself only when the card has no nested sequence
blocks. -/
def outerCombined (card : Card) : String :=
  if card.seqs.isEmpty then card.title ++ " " ++ card.desc else card.title

/-- One iteration of the `for sequence in sequences` loop
(crawler.py lines 137-155).  Sequence-description words are added with no
common-word filtering. -/
def processSeq (dict : List (String × String)) (idx : Index) (s : SeqBlock) : Index :=
  if s.title == "" then idx
  else
    let cid := (dict.lookup s.title).getD "ID not found"
    if cid == "ID not found" then idx
    else
      let idx1 := ensureKey idx cid
      if s.desc == "" then idx1
      else addWords idx1 cid (tokenize (lowerStr s.desc))

def processSeqs (dict : List (String × String)) (seqs : List SeqBlock) (idx : Index) : Index :=
  seqs.foldl (processSeq dict) idx

/-- One iteration of the `for card in course_cards` loop
(crawler.py lines 106-155).  The `.error` case is the uncaught `TypeError`
raised when `card.find("a", href=True)` returns `None` and is subscripted. -/
def processCard (dict : List (String × String)) (common : List String) (pageUrl : String)
    (st : Index × Urls) (card : Card) : Except Unit (Index × Urls) :=
  if card.title == "" then .ok st
  else
    let words := (tokenize (lowerStr (outerCombined card))).filter
      fun w => !common.contains w
    let cid := (dict.lookup card.title).getD "ID not found"
    if cid == "ID not found" then .ok (processSeqs dict card.seqs st.1, st.2)
    else
      match (if hasKey st.2 cid then some st.2 else
              match card.href with
              | some h => some (st.2 ++ [(cid, urljoin pageUrl h)])
              | none => none) with
      | none => .error ()
      | some urls1 =>
        let idx1 := addWords (ensureKey st.1 cid) cid words
        .ok (processSeqs dict card.seqs idx1, urls1)

def buildCards (dict : List (String × String)) (common : List String) (pageUrl : String) :
    List Card → Index × Urls → Except Unit (Index × Urls)
  | [], st => .ok st
  | c :: cs, st =>
    match processCard dict common pageUrl st c with
    | .error e => .error e
    | .ok st' => buildCards dict common pageUrl cs st'

/-- crawler.build_index. -/
def build_index (index : Index) (course_urls : Urls) (pageUrl : String) (page : Page)
    (course_dict : List (String × String)) : Except Unit (Index × Urls) :=
  buildCards course_dict (identify_common_words page.cards 10) pageUrl page.cards
    (index, course_urls)

/-! ## crawler.go -/

/-- Outcome of `requests.get`: a response carrying a status code and a parsed
page, or a transport error (raised exception). -/
inductive FetchResult where
  | response (status : Nat) (page : Page)
  | transportError
deriving DecidableEq

structure CrawlState where
  queue : List String
  visited : List String
  index : Index
  course_urls : Urls
  /-- Ghost log: every URL ever put on the frontier (start URL excluded). -/
  enqueuedLog : List String
  /-- Ghost log: every URL passed to `requests.get`, in order. -/
  fetchLog : List String
deriving DecidableEq

/-- Handling of one discovered anchor href (crawler.py lines 191-201). -/
def enqueueLink (current : String) (st : CrawlState) (href : String) : CrawlState :=
  let full := urljoin current href
  if st.visited.contains full then st
  else if is_url_ok_to_follow full DOMAIN then
    { st with queue := st.queue ++ [full], enqueuedLog := st.enqueuedLog ++ [full] }
  else
    match convert_if_relative_url current full with
    | some c => { st with queue := st.queue ++ [c], enqueuedLog := st.enqueuedLog ++ [c] }
    | none => st

def enqueueLinks (current : String) (page : Page) (st : CrawlState) : CrawlState :=
  page.links.foldl (enqueueLink current) st

/-- `visited_urls.add(current_url)` together with the ghost fetch log (the
URL is about to be passed to `requests.get`). -/
def markVisited (u : String) (st : CrawlState) : CrawlState :=
  { st with visited := st.visited ++ [u], fetchLog := st.fetchLog ++ [u] }

/-- The `build_index` call of the loop, folding its result into the state. -/
def indexPage (course_dict : List (String × String)) (u : String) (page : Page)
    (st : CrawlState) : Except Unit CrawlState :=
  match build_index st.index st.course_urls u page course_dict with
  | .error e => .error e
  | .ok (idx, urls) => .ok { st with index := idx, course_urls := urls }

/-- Body of the crawl loop for a not-yet-visited URL `u` (the queue has
already been popped in `st`): mark visited, fetch, and on a 200 response
discover links and index the page.  A transport error propagates (no
`try`/`except` in the source). -/
def visitUrl (fetch : String → FetchResult) (course_dict : List (String × String))
    (u : String) (st : CrawlState) : Except Unit CrawlState :=
  match fetch u with
  | .transportError => .error ()
  | .response status page =>
    if status == 200 then
      indexPage course_dict u page (enqueueLinks u page (markVisited u st))
    else .ok (markVisited u st)

/-- The `while not urls_to_visit.empty() and len(visited_urls) < n` loop,
indexed by fuel; running out of fuel returns the state reached so far, so
every theorem quantified over the fuel covers in particular each complete
run. -/
def goLoop (fetch : String → FetchResult) (course_dict : List (String × String)) (n : Nat) :
    Nat → CrawlState → Except Unit CrawlState
  | 0, st => .ok st
  | fuel + 1, st =>
    match st.queue with
    | [] => .ok st
    | u :: rest =>
      if n ≤ st.visited.length then .ok st
      else if st.visited.contains u then
        goLoop fetch course_dict n fuel { st with queue := rest }
      else
        match visitUrl fetch course_dict u { st with queue := rest } with
        | .error e => .error e
        | .ok st' => goLoop fetch course_dict n fuel st'

def initState : CrawlState :=
  { queue := [START_URL], visited := [], index := [], course_urls := [],
    enqueuedLog := [], fetchLog := [] }

/-- crawler.go, with the HTTP transport and the parsed dictionary passed in
as parameters. -/
def go (fetch : String → FetchResult) (course_dict : List (String × String))
    (n fuel : Nat) : Except Unit CrawlState :=
  goLoop fetch course_dict n fuel initState

/-! ## Index persistence (crawler.go output loop and util.load_index)

A CSV file is modelled as its list of rows, each row a list of fields. -/

/-- The pipe-delimited index file written at the end of `go`: a header row
followed by one `[id, word]` row per (identifier, word) pair. -/
def writeIndex (index : Index) : List (List String) :=
  ["Course ID", "Word"] :: index.flatMap fun p => p.2.map fun w => [p.1, w]

/-- One row of the loop body of util.load_index. -/
def addLoadedWord (acc : Index) (cid w : String) : Index :=
  if hasKey acc cid then updateEntry acc cid (fun v => v ++ [w])
  else acc ++ [(cid, [w])]

def loadRows : List (List String) → Index → Except Unit Index
  | [], acc => .ok acc
  | row :: rest, acc =>
    match row with
    | [course_id, word] => loadRows rest (addLoadedWord acc course_id word)
    | _ => .error ()

/-- util.load_index; `.error` covers the `StopIteration` of `next(reader)` on
an empty file and the unpacking `ValueError` on a malformed row. -/
def load_index (file : List (List String)) : Except Unit Index :=
  match file with
  | [] => .error ()
  | _header :: rows => loadRows rows []

/-! ## search.search -/

/-- The `(course_id, similarity)` pairs with positive similarity, in index
order: similarity is the size of the intersection of the lowercased,
deduplicated keyword set with the word list of the course. -/
def matchedCourses (keywords : List String) (index : Index) : List (String × Nat) :=
  index.filterMap fun p =>
    let s := ((keywords.map lowerStr).dedup.filter fun k => p.2.contains k).length
    if 0 < s then some (p.1, s) else none

/-- The list comprehension `[course_urls[course_id] for course_id, _ in scores]`;
`none` is the uncaught `KeyError`. -/
def lookupAll (urls : Urls) : List (String × Nat) → Option (List String)
  | [] => some []
  | p :: rest =>
    match urls.lookup p.1 with
    | none => none
    | some v =>
      match lookupAll urls rest with
      | none => none
      | some vs => some (v :: vs)

/-- search.search.  `similarity_scores.sort(reverse=True, key=lambda x: x[1])`
is a stable descending sort by score, i.e. insertion sort with the relation
`b.2 ≤ a.2`. -/
def search (keywords : List String) (index : Index) (course_urls : Urls) :
    Except Unit (List String) :=
  let scores := matchedCourses keywords index
  let sorted := List.insertionSort (fun a b => b.2 ≤ a.2) scores
  match lookupAll course_urls sorted with
  | none => .error ()
  | some l => .ok l

/-! ## Lemmas on the association-list dictionaries -/

theorem lookup_updateEntry_self {α : Type} (l : List (String × α)) (k : String) (f : α → α) :
    (updateEntry l k f).lookup k = (l.lookup k).map f := by
  induction l with
  | nil => rfl
  | cons p rest ih =>
    obtain ⟨k', v⟩ := p
    by_cases h : k' = k
    · subst h
      simp [updateEntry, List.lookup]
    · have h2 : (k' == k) = false := beq_eq_false_iff_ne.mpr h
      have h3 : (k == k') = false := beq_eq_false_iff_ne.mpr (Ne.symm h)
      simp [updateEntry, List.lookup, h2, h3, ih]

theorem lookup_updateEntry_ne {α : Type} (l : List (String × α)) (k k' : String) (f : α → α)
    (h : k' ≠ k) : (updateEntry l k f).lookup k' = l.lookup k' := by
  induction l with
  | nil => rfl
  | cons p rest ih =>
    obtain ⟨ka, v⟩ := p
    by_cases hk : ka = k
    · subst hk
      have h3 : (k' == ka) = false := beq_eq_false_iff_ne.mpr h
      simp [updateEntry, List.lookup, h3]
    · have h2 : (ka == k) = false := beq_eq_false_iff_ne.mpr hk
      by_cases hk2 : k' = ka
      · subst hk2
        simp [updateEntry, List.lookup, h2]
      · have h4 : (k' == ka) = false := beq_eq_false_iff_ne.mpr hk2
        simp [updateEntry, List.lookup, h2, h4, ih]

theorem lookup_append_some {α : Type} {l : List (String × α)} (l' : List (String × α))
    {k : String} {v : α} (h : l.lookup k = some v) : (l ++ l').lookup k = some v := by
  induction l with
  | nil => simp [List.lookup] at h
  | cons p rest ih =>
    obtain ⟨ka, va⟩ := p
    by_cases hk : k = ka
    · subst hk
      simp [List.lookup] at h ⊢
      exact h
    · have h2 : (k == ka) = false := beq_eq_false_iff_ne.mpr hk
      simp [List.lookup, h2] at h ⊢
      exact ih h

theorem lookup_append_none {α : Type} {l : List (String × α)} (l' : List (String × α))
    {k : String} (h : l.lookup k = none) : (l ++ l').lookup k = l'.lookup k := by
  induction l with
  | nil => rfl
  | cons p rest ih =>
    obtain ⟨ka, va⟩ := p
    by_cases hk : k = ka
    · subst hk
      simp [List.lookup] at h
    · have h2 : (k == ka) = false := beq_eq_false_iff_ne.mpr hk
      simp only [List.lookup, h2, List.cons_append] at h ⊢
      exact ih h

theorem hasKey_iff_lookup {α : Type} (l : List (String × α)) (k : String) :
    hasKey l k = true ↔ ∃ v, l.lookup k = some v := by
  induction l with
  | nil => simp [hasKey, List.lookup]
  | cons p rest ih =>
    obtain ⟨ka, va⟩ := p
    by_cases hk : ka = k
    · subst hk
      simp [hasKey, List.lookup]
    · have h2 : (ka == k) = false := beq_eq_false_iff_ne.mpr hk
      have h3 : (k == ka) = false := beq_eq_false_iff_ne.mpr (Ne.symm hk)
      simp only [hasKey, List.any_cons, h2, Bool.false_or, List.lookup, h3] at ih ⊢
      exact ih

theorem hasKey_updateEntry {α : Type} (l : List (String × α)) (k k' : String) (f : α → α) :
    hasKey (updateEntry l k f) k' = hasKey l k' := by
  induction l with
  | nil => rfl
  | cons p rest ih =>
    obtain ⟨ka, va⟩ := p
    by_cases hk : ka = k
    · subst hk
      simp [updateEntry, hasKey]
    · have h2 : (ka == k) = false := beq_eq_false_iff_ne.mpr hk
      simp only [updateEntry, h2, Bool.false_eq_true, if_false, hasKey, List.any_cons]
      simp only [hasKey] at ih
      rw [ih]

theorem mem_getD_updateEntry {idx : Index} {k id wNew w : String}
    (h : w ∈ getD (updateEntry idx k (fun v => v ++ [wNew])) id) :
    w ∈ getD idx id ∨ w = wNew := by
  by_cases hk : id = k
  · subst hk
    unfold getD at h
    rw [lookup_updateEntry_self] at h
    cases hl : idx.lookup id with
    | none => rw [hl] at h; simp at h
    | some v =>
      rw [hl] at h
      simp at h
      unfold getD
      rw [hl]
      rcases h with h | h
      · exact Or.inl h
      · exact Or.inr h
  · unfold getD at h
    rw [lookup_updateEntry_ne _ _ _ _ hk] at h
    exact Or.inl h

theorem mem_getD_addWords {idx : Index} {cid : String} {ws : List String} {id w : String}
    (h : w ∈ getD (addWords idx cid ws) id) : w ∈ getD idx id ∨ w ∈ ws := by
  induction ws generalizing idx with
  | nil => exact Or.inl h
  | cons a as ih =>
    rw [addWords, List.foldl_cons] at h
    rcases ih h with h1 | h1
    · by_cases hc : (getD idx cid).contains a
      · simp only [hc, if_pos] at h1
        exact Or.inl h1
      · simp only [hc] at h1
        rw [if_neg (by simp [hc])] at h1
        rcases mem_getD_updateEntry h1 with h2 | h2
        · exact Or.inl h2
        · exact Or.inr (by simp [h2])
    · exact Or.inr (List.mem_cons_of_mem _ h1)

theorem mem_getD_ensureKey {idx : Index} {k id w : String}
    (h : w ∈ getD (ensureKey idx k) id) : w ∈ getD idx id := by
  unfold ensureKey at h
  by_cases hk : hasKey idx k
  · rwa [if_pos hk] at h
  · rw [if_neg hk] at h
    unfold getD at h ⊢
    cases hl : idx.lookup id with
    | none =>
      rw [lookup_append_none _ hl] at h
      by_cases hid : id = k
      · subst hid
        simp [List.lookup] at h
      · have h2 : (id == k) = false := beq_eq_false_iff_ne.mpr hid
        simp [List.lookup, h2] at h
    | some v =>
      rw [lookup_append_some _ hl] at h
      exact h

theorem contains_false_iff {l : List String} {a : String} :
    l.contains a = false ↔ a ∉ l := by
  rw [← Bool.not_eq_true]
  simp [List.contains]

/-! ## Word provenance through build_index -/

theorem mem_getD_processSeq (dict : List (String × String)) (idx : Index) (s : SeqBlock)
    {id w : String} (h : w ∈ getD (processSeq dict idx s) id) :
    w ∈ getD idx id ∨ w ∈ tokenize (lowerStr s.desc) := by
  simp only [processSeq] at h
  split at h
  · exact Or.inl h
  · split at h
    · exact Or.inl h
    · split at h
      · exact Or.inl (mem_getD_ensureKey h)
      · rcases mem_getD_addWords h with h4 | h4
        · exact Or.inl (mem_getD_ensureKey h4)
        · exact Or.inr h4

theorem mem_getD_processSeqs (dict : List (String × String)) (seqs : List SeqBlock)
    (idx : Index) {id w : String} (h : w ∈ getD (processSeqs dict seqs idx) id) :
    w ∈ getD idx id ∨ ∃ s ∈ seqs, w ∈ tokenize (lowerStr s.desc) := by
  induction seqs generalizing idx with
  | nil => exact Or.inl h
  | cons a as ih =>
    rw [processSeqs, List.foldl_cons] at h
    rcases ih (processSeq dict idx a) h with h1 | h1
    · rcases mem_getD_processSeq dict idx a h1 with h2 | h2
      · exact Or.inl h2
      · exact Or.inr ⟨a, by simp, h2⟩
    · obtain ⟨s, hs, hw⟩ := h1
      exact Or.inr ⟨s, by simp [hs], hw⟩

theorem mem_getD_processCard {dict : List (String × String)} {common : List String}
    {pu : String} {st : Index × Urls} {card : Card} {st' : Index × Urls}
    (h : processCard dict common pu st card = .ok st') {id w : String}
    (hm : w ∈ getD st'.1 id) :
    w ∈ getD st.1 id ∨
      (w ∈ tokenize (lowerStr (outerCombined card)) ∧ common.contains w = false) ∨
      ∃ s ∈ card.seqs, w ∈ tokenize (lowerStr s.desc) := by
  simp only [processCard] at h
  split at h
  · injection h with h2
    rw [← h2] at hm
    exact Or.inl hm
  · split at h
    · injection h with h2
      rw [← h2] at hm
      rcases mem_getD_processSeqs _ _ _ hm with h1 | h1
      · exact Or.inl h1
      · exact Or.inr (Or.inr h1)
    · split at h
      · cases h
      · injection h with h2
        rw [← h2] at hm
        rcases mem_getD_processSeqs _ _ _ hm with h1 | h1
        · rcases mem_getD_addWords h1 with h3 | h3
          · exact Or.inl (mem_getD_ensureKey h3)
          · obtain ⟨ht, hb⟩ := List.mem_filter.mp h3
            exact Or.inr (Or.inl ⟨ht, by simpa using hb⟩)
        · exact Or.inr (Or.inr h1)

theorem mem_getD_buildCards {dict : List (String × String)} {common : List String}
    {pu : String} :
    ∀ (cs : List Card) (st st' : Index × Urls),
      buildCards dict common pu cs st = .ok st' → ∀ {id w : String}, w ∈ getD st'.1 id →
        w ∈ getD st.1 id ∨
          ∃ c ∈ cs, (w ∈ tokenize (lowerStr (outerCombined c)) ∧ common.contains w = false) ∨
            ∃ s ∈ c.seqs, w ∈ tokenize (lowerStr s.desc) := by
  intro cs
  induction cs with
  | nil =>
    intro st st' h id w hm
    injection h with h2
    rw [← h2] at hm
    exact Or.inl hm
  | cons c cs ih =>
    intro st st' h id w hm
    simp only [buildCards] at h
    cases hp : processCard dict common pu st c with
    | error e => rw [hp] at h; cases h
    | ok st1 =>
      rw [hp] at h
      rcases ih st1 st' h hm with h1 | h1
      · rcases mem_getD_processCard hp h1 with h2 | h2 | h2
        · exact Or.inl h2
        · exact Or.inr ⟨c, by simp, Or.inl h2⟩
        · exact Or.inr ⟨c, by simp, Or.inr h2⟩
      · obtain ⟨c2, hc2, hrest⟩ := h1
        exact Or.inr ⟨c2, by simp [hc2], hrest⟩

theorem not_mem_common_words {cards : List Card} {w : String}
    (h : w ∉ identify_common_words cards 10) :
    (pageTokens cards).count w < 10 ∧ w ∉ COMMON_WORDS := by
  unfold identify_common_words at h
  rw [List.mem_append] at h
  push_neg at h
  obtain ⟨h1, h2⟩ := h
  refine ⟨?_, h2⟩
  by_contra h3
  push_neg at h3
  have hmem : w ∈ pageTokens cards :=
    List.count_pos_iff.mp (lt_of_lt_of_le (by norm_num) h3)
  exact h1 (List.mem_filter.mpr ⟨List.mem_dedup.mpr hmem, by simpa using h3⟩)

/-- Claim C1 (amended).  During build_index, a word newly added to the word
set of any course identifier is either non-common (page frequency below the
threshold 10 and outside the fixed stop-word preset) — this covers every
word contributed by the outer card blocks — or it is a token of the
description of some nested sequence block: those words are appended with no
common-word filtering at all (crawler.py lines 152-155). -/
theorem build_index_common_word_filtering {idx : Index} {urls : Urls} {pu : String}
    {page : Page} {dict : List (String × String)} {idx' : Index} {urls' : Urls}
    (h : build_index idx urls pu page dict = .ok (idx', urls')) (id w : String)
    (hm : w ∈ getD idx' id) :
    w ∈ getD idx id ∨
      ((pageTokens page.cards).count w < 10 ∧ w ∉ COMMON_WORDS) ∨
      ∃ c ∈ page.cards, ∃ s ∈ c.seqs, w ∈ tokenize (lowerStr s.desc) := by
  rcases mem_getD_buildCards page.cards (idx, urls) (idx', urls') h hm with h1 | h1
  · exact Or.inl h1
  · obtain ⟨c, hc, h2 | h2⟩ := h1
    · refine Or.inr (Or.inl ?_)
      exact not_mem_common_words (contains_false_iff.mp h2.2)
    · exact Or.inr (Or.inr ⟨c, hc, h2⟩)

/-- Claim C8.  Every word that build_index adds to the word set of any
identifier is a token of the outer combined text of some card — the title
alone when the card has nested sequence blocks, title plus description when
it has none — or a token of the description of a nested sequence block.  In
particular, for a card with at least one nested block the description of the
outer card contributes no words. -/
theorem build_index_nested_exclusivity {idx : Index} {urls : Urls} {pu : String}
    {page : Page} {dict : List (String × String)} {idx' : Index} {urls' : Urls}
    (h : build_index idx urls pu page dict = .ok (idx', urls')) (id w : String)
    (hm : w ∈ getD idx' id) :
    w ∈ getD idx id ∨
      ∃ c ∈ page.cards,
        (c.seqs = [] ∧ w ∈ tokenize (lowerStr (c.title ++ " " ++ c.desc))) ∨
        (c.seqs ≠ [] ∧ w ∈ tokenize (lowerStr c.title)) ∨
        ∃ s ∈ c.seqs, w ∈ tokenize (lowerStr s.desc) := by
  rcases mem_getD_buildCards page.cards (idx, urls) (idx', urls') h hm with h1 | h1
  · exact Or.inl h1
  · obtain ⟨c, hc, h2 | h2⟩ := h1
    · refine Or.inr ⟨c, hc, ?_⟩
      obtain ⟨h21, _⟩ := h2
      by_cases hseq : c.seqs = []
      · refine Or.inl ⟨hseq, ?_⟩
        have heq : outerCombined c = c.title ++ " " ++ c.desc := by
          simp [outerCombined, hseq]
        rwa [heq] at h21
      · refine Or.inr (Or.inl ⟨hseq, ?_⟩)
        have heq : outerCombined c = c.title := by
          simp [outerCombined, List.isEmpty_iff, hseq]
        rwa [heq] at h21
    · exact Or.inr ⟨c, hc, Or.inr (Or.inr h2)⟩

/-! ## Preservation of the course-URL map -/

theorem lookup_urls_processCard {dict : List (String × String)} {common : List String}
    {pu : String} {st : Index × Urls} {card : Card} {st' : Index × Urls}
    (h : processCard dict common pu st card = .ok st') {id v : String}
    (hv : st.2.lookup id = some v) : st'.2.lookup id = some v := by
  simp only [processCard] at h
  split at h
  · injection h with h2
    rw [← h2]
    exact hv
  · split at h
    · injection h with h2
      rw [← h2]
      exact hv
    · split at h
      · cases h
      · next urls1 heq =>
        injection h with h2
        rw [← h2]
        split at heq
        · injection heq with h3
          rw [← h3]
          exact hv
        · cases hh : card.href with
          | none => rw [hh] at heq; cases heq
          | some ha =>
            rw [hh] at heq
            injection heq with h3
            rw [← h3]
            exact lookup_append_some _ hv

theorem lookup_urls_buildCards {dict : List (String × String)} {common : List String}
    {pu : String} :
    ∀ (cs : List Card) (st st' : Index × Urls),
      buildCards dict common pu cs st = .ok st' → ∀ {id v : String},
        st.2.lookup id = some v → st'.2.lookup id = some v := by
  intro cs
  induction cs with
  | nil =>
    intro st st' h id v hv
    injection h with h2
    rw [← h2]
    exact hv
  | cons c cs ih =>
    intro st st' h id v hv
    simp only [buildCards] at h
    cases hp : processCard dict common pu st c with
    | error e => rw [hp] at h; cases h
    | ok st1 =>
      rw [hp] at h
      exact ih st1 st' h (lookup_urls_processCard hp hv)

/-- Claim C9.  The course-URL map is written at most once per identifier:
any entry present before a call to build_index is still present, unchanged,
afterwards — a later sighting of the identifier never overwrites it and no
operation removes it. -/
theorem build_index_url_first_wins {idx : Index} {urls : Urls} {pu : String}
    {page : Page} {dict : List (String × String)} {idx' : Index} {urls' : Urls}
    (h : build_index idx urls pu page dict = .ok (idx', urls')) (id v : String)
    (hv : urls.lookup id = some v) : urls'.lookup id = some v :=
  lookup_urls_buildCards page.cards (idx, urls) (idx', urls') h hv

/-! ## Concrete pages used by the counterexamples and witnesses -/

def cexPage : Page :=
  { links := [],
    cards := [{ title := "Curso Python", desc := "aprende de python",
                seqs := [{ title := "Taller Scratch", desc := "aprende de python" }],
                href := some "/curso" }] }

def cexDict : List (String × String) :=
  [("Curso Python", "C1"), ("Taller Scratch", "C2")]

def cexIdx : Index :=
  [("C1", ["curso", "python"]), ("C2", ["aprende", "de", "python"])]

/-- Claim C1 (counterexample).  On a page holding one card with a nested
sequence block whose description contains the preset stop word "de", the
word "de" ends up in the word set of course C2: sequence-description words
are not filtered against the common-word list, so the claimed exclusion
fails for nested sequence blocks. -/
theorem build_index_seq_adds_stop_word :
    build_index [] [] "https://educacionvirtual.javeriana.edu.co/p" cexPage cexDict =
      .ok (cexIdx, [("C1", "https://educacionvirtual.javeriana.edu.co/curso")]) ∧
    "de" ∈ COMMON_WORDS ∧ "de" ∈ getD cexIdx "C2" :=
  ⟨by rfl, by decide, by decide⟩

/-- Witness for the amended claim C1 at a concrete input. -/
theorem build_index_common_word_filtering_witness :
    (build_index [] [] "https://educacionvirtual.javeriana.edu.co/p" cexPage cexDict =
      .ok (cexIdx, [("C1", "https://educacionvirtual.javeriana.edu.co/curso")])) ∧
    "de" ∈ getD cexIdx "C2" ∧
    ("de" ∈ getD ([] : Index) "C2" ∨
      ((pageTokens cexPage.cards).count "de" < 10 ∧ "de" ∉ COMMON_WORDS) ∨
      ∃ c ∈ cexPage.cards, ∃ s ∈ c.seqs, "de" ∈ tokenize (lowerStr s.desc)) := by
  have h : build_index [] [] "https://educacionvirtual.javeriana.edu.co/p" cexPage cexDict =
      .ok (cexIdx, [("C1", "https://educacionvirtual.javeriana.edu.co/curso")]) := by rfl
  exact ⟨h, by decide, build_index_common_word_filtering h "C2" "de" (by decide)⟩

def c8Page : Page :=
  { links := [],
    cards :=
      [{ title := "Curso Foto", desc := "luz y enfoque", seqs := [], href := some "/f" },
       { title := "Curso Python", desc := "juegos basicos",
         seqs := [{ title := "Taller Scratch", desc := "juegos basicos" }],
         href := some "/p" }] }

def c8Dict : List (String × String) :=
  [("Curso Foto", "F1"), ("Curso Python", "P1"), ("Taller Scratch", "S1")]

def c8Idx : Index :=
  [("F1", ["curso", "foto", "luz", "enfoque"]), ("P1", ["curso", "python"]),
   ("S1", ["juegos", "basicos"])]

/-- Witness for claim C8 at a concrete input: the word "curso" reaching P1
comes from the title of the card that has a nested block. -/
theorem build_index_nested_exclusivity_witness :
    (build_index [] [] "https://educacionvirtual.javeriana.edu.co/q" c8Page c8Dict =
      .ok (c8Idx,
        [("F1", "https://educacionvirtual.javeriana.edu.co/f"),
         ("P1", "https://educacionvirtual.javeriana.edu.co/p")])) ∧
    "curso" ∈ getD c8Idx "P1" ∧
    ("curso" ∈ getD ([] : Index) "P1" ∨
      ∃ c ∈ c8Page.cards,
        (c.seqs = [] ∧ "curso" ∈ tokenize (lowerStr (c.title ++ " " ++ c.desc))) ∨
        (c.seqs ≠ [] ∧ "curso" ∈ tokenize (lowerStr c.title)) ∨
        ∃ s ∈ c.seqs, "curso" ∈ tokenize (lowerStr s.desc)) := by
  have h : build_index [] [] "https://educacionvirtual.javeriana.edu.co/q" c8Page c8Dict =
      .ok (c8Idx,
        [("F1", "https://educacionvirtual.javeriana.edu.co/f"),
         ("P1", "https://educacionvirtual.javeriana.edu.co/p")]) := by rfl
  exact ⟨h, by decide, build_index_nested_exclusivity h "P1" "curso" (by decide)⟩

def c9Page : Page :=
  { links := [],
    cards := [{ title := "Curso Python", desc := "temas nuevos", seqs := [],
                href := some "/new" }] }

def c9Dict : List (String × String) := [("Curso Python", "C1")]

/-- Witness for claim C9 at a concrete input: a second sighting of C1 with a
different anchor leaves the recorded URL unchanged. -/
theorem build_index_url_first_wins_witness :
    (build_index [] [("C1", "https://old/u")]
        "https://educacionvirtual.javeriana.edu.co/q" c9Page c9Dict =
      .ok ([("C1", ["curso", "python", "temas", "nuevos"])], [("C1", "https://old/u")])) ∧
    (([("C1", "https://old/u")] : Urls).lookup "C1" = some "https://old/u") ∧
    (([("C1", "https://old/u")] : Urls).lookup "C1" = some "https://old/u") := by
  have h : build_index [] [("C1", "https://old/u")]
      "https://educacionvirtual.javeriana.edu.co/q" c9Page c9Dict =
      .ok ([("C1", ["curso", "python", "temas", "nuevos"])], [("C1", "https://old/u")]) := by
    rfl
  exact ⟨h, by decide, build_index_url_first_wins h "C1" "https://old/u" (by decide)⟩

def c10Page : Page :=
  { links := [],
    cards := [{ title := "Taller X", desc := "", seqs := [], href := none }] }

def c10Dict : List (String × String) := [("Taller X", "C7")]

/-- Claim C10.  A card whose title resolves to an identifier that has no URL
recorded yet, but which holds no anchor with an href, makes build_index fail
(the subscript of the `None` returned by `card.find("a", href=True)`), and
the failure propagates out of the crawl loop, aborting the whole crawl. -/
theorem build_index_missing_href_aborts :
    build_index [] [] "https://x/" c10Page c10Dict = .error () ∧
    go (fun u => if u = START_URL then .response 200 c10Page else .transportError)
      c10Dict 5 10 = .error () :=
  ⟨by rfl, by rfl⟩

/-! ## Lemmas on the crawl loop -/

theorem enqueueLink_fields (cur : String) (st : CrawlState) (href : String) :
    (enqueueLink cur st href).visited = st.visited ∧
    (enqueueLink cur st href).fetchLog = st.fetchLog ∧
    (enqueueLink cur st href).index = st.index ∧
    (enqueueLink cur st href).course_urls = st.course_urls := by
  simp only [enqueueLink]
  split
  · exact ⟨rfl, rfl, rfl, rfl⟩
  · split
    · exact ⟨rfl, rfl, rfl, rfl⟩
    · split
      · exact ⟨rfl, rfl, rfl, rfl⟩
      · exact ⟨rfl, rfl, rfl, rfl⟩

theorem enqueueLinksAux_fields (cur : String) :
    ∀ (links : List String) (st : CrawlState),
      (links.foldl (enqueueLink cur) st).visited = st.visited ∧
      (links.foldl (enqueueLink cur) st).fetchLog = st.fetchLog ∧
      (links.foldl (enqueueLink cur) st).index = st.index ∧
      (links.foldl (enqueueLink cur) st).course_urls = st.course_urls := by
  intro links
  induction links with
  | nil => intro st; exact ⟨rfl, rfl, rfl, rfl⟩
  | cons a as ih =>
    intro st
    rw [List.foldl_cons]
    obtain ⟨h1, h2, h3, h4⟩ := ih (enqueueLink cur st a)
    obtain ⟨g1, g2, g3, g4⟩ := enqueueLink_fields cur st a
    exact ⟨h1.trans g1, h2.trans g2, h3.trans g3, h4.trans g4⟩

theorem enqueueLinks_fields (cur : String) (page : Page) (st : CrawlState) :
    (enqueueLinks cur page st).visited = st.visited ∧
    (enqueueLinks cur page st).fetchLog = st.fetchLog :=
  ⟨(enqueueLinksAux_fields cur page.links st).1, (enqueueLinksAux_fields cur page.links st).2.1⟩

theorem indexPage_ok_fields {dict : List (String × String)} {u : String} {page : Page}
    {st st' : CrawlState} (h : indexPage dict u page st = .ok st') :
    st'.queue = st.queue ∧ st'.visited = st.visited ∧
    st'.enqueuedLog = st.enqueuedLog ∧ st'.fetchLog = st.fetchLog := by
  simp only [indexPage] at h
  cases hb : build_index st.index st.course_urls u page dict with
  | error e => rw [hb] at h; cases h
  | ok pr =>
    obtain ⟨i2, u2⟩ := pr
    rw [hb] at h
    injection h with h2
    rw [← h2]
    exact ⟨rfl, rfl, rfl, rfl⟩

theorem visitUrl_ok_shape {fetch : String → FetchResult} {dict : List (String × String)}
    {u : String} {st st' : CrawlState} (h : visitUrl fetch dict u st = .ok st') :
    st'.visited = st.visited ++ [u] ∧ st'.fetchLog = st.fetchLog ++ [u] := by
  cases hf : fetch u with
  | transportError =>
    simp only [visitUrl, hf] at h
    exact Except.noConfusion h
  | response s p =>
    simp only [visitUrl, hf] at h
    by_cases hs : (s == 200) = true
    · rw [if_pos hs] at h
      obtain ⟨g1, g2, g3, g4⟩ := indexPage_ok_fields h
      obtain ⟨e1, e2⟩ := enqueueLinks_fields u p (markVisited u st)
      exact ⟨g2.trans e1, g4.trans e2⟩
    · rw [if_neg hs] at h
      injection h with h2
      rw [← h2]
      exact ⟨rfl, rfl⟩

theorem goLoop_inv (fetch : String → FetchResult) (dict : List (String × String)) (n : Nat) :
    ∀ (fuel : Nat) (st st' : CrawlState),
      goLoop fetch dict n fuel st = .ok st' →
      st.fetchLog = st.visited → st.visited.Nodup → st.visited.length ≤ n →
      st'.fetchLog = st'.visited ∧ st'.visited.Nodup ∧ st'.visited.length ≤ n := by
  intro fuel
  induction fuel with
  | zero =>
    intro st st' h h1 h2 h3
    injection h with h4
    rw [← h4]
    exact ⟨h1, h2, h3⟩
  | succ fuel ih =>
    intro st st' h h1 h2 h3
    cases hq : st.queue with
    | nil =>
      simp only [goLoop, hq] at h
      injection h with h4; rw [← h4]; exact ⟨h1, h2, h3⟩
    | cons u rest =>
      simp only [goLoop, hq] at h
      by_cases hn : n ≤ st.visited.length
      · rw [if_pos hn] at h; injection h with h4; rw [← h4]; exact ⟨h1, h2, h3⟩
      · rw [if_neg hn] at h
        by_cases hv : st.visited.contains u
        · rw [if_pos hv] at h
          exact ih _ _ h h1 h2 h3
        · rw [if_neg hv] at h
          cases hvu : visitUrl fetch dict u { st with queue := rest } with
          | error e => rw [hvu] at h; cases h
          | ok st1 =>
            rw [hvu] at h
            obtain ⟨hvis, hlog⟩ := visitUrl_ok_shape hvu
            have hu : u ∉ st.visited := by
              have hv2 : st.visited.contains u = false := by simpa using hv
              exact contains_false_iff.mp hv2
            apply ih _ _ h
            · rw [hlog, hvis]
              show st.fetchLog ++ [u] = st.visited ++ [u]
              rw [h1]
            · rw [hvis]
              show (st.visited ++ [u]).Nodup
              simp [List.nodup_append, h2, hu]
            · rw [hvis]
              show (st.visited ++ [u]).length ≤ n
              rw [List.length_append, List.length_singleton]
              omega

/-- Claim C4.  In every crawl run that terminates normally, no URL is ever
fetched twice (the fetch log has no duplicates: a dequeued URL already in
the visited set is skipped without re-fetching), and the visited set never
exceeds the page budget `n`. -/
theorem crawl_fetch_once_and_budget {fetch : String → FetchResult}
    {dict : List (String × String)} {n fuel : Nat} {st : CrawlState}
    (h : go fetch dict n fuel = .ok st) :
    st.fetchLog.Nodup ∧ st.visited.length ≤ n := by
  obtain ⟨h1, h2, h3⟩ :=
    goLoop_inv fetch dict n fuel initState st h rfl (by simp [initState]) (by simp [initState])
  rw [h1]
  exact ⟨h2, h3⟩

def c4Fetch : String → FetchResult := fun _ => .response 404 { links := [], cards := [] }

def c4Final : CrawlState :=
  { queue := [], visited := [START_URL], index := [], course_urls := [],
    enqueuedLog := [], fetchLog := [START_URL] }

/-- Witness for claim C4 at a concrete run. -/
theorem crawl_fetch_once_and_budget_witness :
    (go c4Fetch [] 1 2 = .ok c4Final) ∧
    (c4Final.fetchLog.Nodup ∧ c4Final.visited.length ≤ 1) := by
  have h : go c4Fetch [] 1 2 = .ok c4Final := by rfl
  exact ⟨h, crawl_fetch_once_and_budget h⟩

/-- Claim C3 (amended).  A fetch that returns with a non-200 status is
recoverable: the dequeued URL is only marked visited and logged, nothing is
indexed, no link is enqueued, and the loop goes on with an otherwise
unchanged state.  (The counterexample shows the transport-error half of the
original claim fails: such an error is not caught and aborts the crawl.) -/
theorem non200_fetch_skipped {fetch : String → FetchResult} {dict : List (String × String)}
    {u : String} {st : CrawlState} {s : Nat} {p : Page}
    (hf : fetch u = .response s p) (hs : s ≠ 200) :
    visitUrl fetch dict u st = .ok (markVisited u st) := by
  have hb : (s == 200) = false := by simpa using hs
  simp only [visitUrl, hf, hb, Bool.false_eq_true, if_false]

/-- Claim C3 (counterexample).  A transport error on the very first fetch
(modelled by `requests.get` raising) aborts the whole crawl instead of
skipping the page: `go` propagates the exception. -/
theorem transport_error_aborts :
    go (fun _ => FetchResult.transportError) [] 5 10 = .error () := by rfl

def c3Fetch : String → FetchResult := fun _ => .response 500 { links := [], cards := [] }

/-- Witness for the amended claim C3 at a concrete input. -/
theorem non200_fetch_skipped_witness :
    (c3Fetch "https://x/" = .response 500 { links := [], cards := [] }) ∧
    (500 ≠ 200) ∧
    visitUrl c3Fetch [] "https://x/" initState = .ok (markVisited "https://x/" initState) := by
  refine ⟨rfl, by decide, ?_⟩
  exact @non200_fetch_skipped c3Fetch [] "https://x/" initState 500
    { links := [], cards := [] } rfl (by decide)

/-! ## Domain policy on enqueued URLs (claim C2) -/

theorem mem_enqueueLink_log {cur : String} {st : CrawlState} {href u : String}
    (h : u ∈ (enqueueLink cur st href).enqueuedLog) :
    u ∈ st.enqueuedLog ∨
      (is_url_ok_to_follow (urljoin cur href) DOMAIN = true ∧ u = urljoin cur href) ∨
      (is_url_ok_to_follow (urljoin cur href) DOMAIN = false ∧
        convert_if_relative_url cur (urljoin cur href) = some u) := by
  simp only [enqueueLink] at h
  split at h
  · exact Or.inl h
  · split at h
    · next hok =>
      rcases List.mem_append.mp h with h1 | h1
      · exact Or.inl h1
      · exact Or.inr (Or.inl ⟨hok, by simpa using h1⟩)
    · next hok =>
      have hok2 : is_url_ok_to_follow (urljoin cur href) DOMAIN = false := by
        simpa using hok
      cases hc : convert_if_relative_url cur (urljoin cur href) with
      | none => rw [hc] at h; exact Or.inl h
      | some c =>
        rw [hc] at h
        rcases List.mem_append.mp h with h1 | h1
        · exact Or.inl h1
        · have huc : u = c := by simpa using h1
          exact Or.inr (Or.inr ⟨hok2, by simp [hc, huc]⟩)

theorem mem_enqueueLinks_log {cur : String} :
    ∀ (links : List String) (st : CrawlState) (u : String),
      u ∈ (links.foldl (enqueueLink cur) st).enqueuedLog →
      u ∈ st.enqueuedLog ∨ ∃ href ∈ links,
        (is_url_ok_to_follow (urljoin cur href) DOMAIN = true ∧ u = urljoin cur href) ∨
        (is_url_ok_to_follow (urljoin cur href) DOMAIN = false ∧
          convert_if_relative_url cur (urljoin cur href) = some u) := by
  intro links
  induction links with
  | nil => intro st u h; exact Or.inl h
  | cons a as ih =>
    intro st u h
    rw [List.foldl_cons] at h
    rcases ih _ u h with h1 | h1
    · rcases mem_enqueueLink_log h1 with h2 | h2 | h2
      · exact Or.inl h2
      · exact Or.inr ⟨a, by simp, Or.inl h2⟩
      · exact Or.inr ⟨a, by simp, Or.inr h2⟩
    · obtain ⟨href, hh, hp⟩ := h1
      exact Or.inr ⟨href, by simp [hh], hp⟩

/-- Invariant behind the amended claim C2: every URL on the enqueued log
either passed is_url_ok_to_follow, or was produced — with no re-validation —
by the conversion fallback from a link of some fetched page whose joined
form failed the check. -/
def EnqProv (fetch : String → FetchResult) (st : CrawlState) : Prop :=
  ∀ u ∈ st.enqueuedLog, is_url_ok_to_follow u DOMAIN = true ∨
    ∃ base s p, base ∈ st.visited ∧ fetch base = FetchResult.response s p ∧
      ∃ href ∈ p.links, is_url_ok_to_follow (urljoin base href) DOMAIN = false ∧
        convert_if_relative_url base (urljoin base href) = some u

theorem visitUrl_enqProv {fetch : String → FetchResult} {dict : List (String × String)}
    {u : String} {st st1 : CrawlState} (hvu : visitUrl fetch dict u st = .ok st1)
    (hprov : EnqProv fetch st) : EnqProv fetch st1 := by
  cases hf : fetch u with
  | transportError =>
    simp only [visitUrl, hf] at hvu
    exact Except.noConfusion hvu
  | response s p =>
    simp only [visitUrl, hf] at hvu
    by_cases hs : (s == 200) = true
    · rw [if_pos hs] at hvu
      obtain ⟨g1, g2, g3, g4⟩ := indexPage_ok_fields hvu
      intro v hv
      rw [g3] at hv
      rcases mem_enqueueLinks_log p.links (markVisited u st) v hv with h1 | h1
      · rcases hprov v h1 with h2 | h2
        · exact Or.inl h2
        · obtain ⟨base, s2, p2, hb1, hb2, hrest⟩ := h2
          refine Or.inr ⟨base, s2, p2, ?_, hb2, hrest⟩
          rw [g2, (enqueueLinks_fields u p (markVisited u st)).1]
          exact List.mem_append_left _ hb1
      · obtain ⟨href, hh, hp1 | hp1⟩ := h1
        · exact Or.inl (hp1.2 ▸ hp1.1)
        · refine Or.inr ⟨u, s, p, ?_, hf, href, hh, hp1⟩
          rw [g2, (enqueueLinks_fields u p (markVisited u st)).1]
          exact List.mem_append_right _ (by simp [markVisited])
    · rw [if_neg hs] at hvu
      injection hvu with h2
      rw [← h2]
      intro v hv
      rcases hprov v hv with h1 | h1
      · exact Or.inl h1
      · obtain ⟨base, s2, p2, hb1, hb2, hrest⟩ := h1
        exact Or.inr ⟨base, s2, p2, List.mem_append_left _ hb1, hb2, hrest⟩

theorem goLoop_enqProv (fetch : String → FetchResult) (dict : List (String × String))
    (n : Nat) :
    ∀ (fuel : Nat) (st st' : CrawlState),
      goLoop fetch dict n fuel st = .ok st' → EnqProv fetch st → EnqProv fetch st' := by
  intro fuel
  induction fuel with
  | zero =>
    intro st st' h hprov
    injection h with h4
    rw [← h4]
    exact hprov
  | succ fuel ih =>
    intro st st' h hprov
    cases hq : st.queue with
    | nil =>
      simp only [goLoop, hq] at h
      injection h with h4
      rw [← h4]
      exact hprov
    | cons u rest =>
      simp only [goLoop, hq] at h
      by_cases hn : n ≤ st.visited.length
      · rw [if_pos hn] at h; injection h with h4; rw [← h4]; exact hprov
      · rw [if_neg hn] at h
        by_cases hv : st.visited.contains u
        · rw [if_pos hv] at h
          exact ih _ _ h hprov
        · rw [if_neg hv] at h
          cases hvu : visitUrl fetch dict u { st with queue := rest } with
          | error e => rw [hvu] at h; cases h
          | ok st1 =>
            rw [hvu] at h
            exact ih _ _ h (visitUrl_enqProv hvu hprov)

/-- Claim C2 (amended).  In every crawl run, a URL on the enqueued-log
either satisfies is_url_ok_to_follow for the configured domain, or it was
enqueued by the conversion fallback (crawler.py lines 196-201): a link of a
fetched page whose urljoined form failed is_url_ok_to_follow and was
non-absolute, re-joined by convert_if_relative_url and enqueued with no
further validation — so non-HTTP(S) URIs such as mailto: links do get
enqueued and later fetched. -/
theorem enqueued_ok_or_fallback {fetch : String → FetchResult}
    {dict : List (String × String)} {n fuel : Nat} {st : CrawlState}
    (h : go fetch dict n fuel = .ok st) (u : String) (hu : u ∈ st.enqueuedLog) :
    is_url_ok_to_follow u DOMAIN = true ∨
    ∃ base s p, base ∈ st.visited ∧ fetch base = FetchResult.response s p ∧
      ∃ href ∈ p.links, is_url_ok_to_follow (urljoin base href) DOMAIN = false ∧
        convert_if_relative_url base (urljoin base href) = some u := by
  have hinit : EnqProv fetch initState := by
    intro v hv
    simp [initState] at hv
  exact goLoop_enqProv fetch dict n fuel initState st h hinit u hu

def c2Fetch : String → FetchResult := fun u =>
  if u = START_URL then
    .response 200 { links := ["/cursos/", "mailto:a@b.c"], cards := [] }
  else .response 404 { links := [], cards := [] }

def c2Final : CrawlState :=
  { queue := [],
    visited := [START_URL, "https://educacionvirtual.javeriana.edu.co/cursos/",
      "mailto:a@b.c"],
    index := [], course_urls := [],
    enqueuedLog := ["https://educacionvirtual.javeriana.edu.co/cursos/", "mailto:a@b.c"],
    fetchLog := [START_URL, "https://educacionvirtual.javeriana.edu.co/cursos/",
      "mailto:a@b.c"] }

/-- Claim C2 (counterexample).  A page that carries a `mailto:` anchor gets
that URI enqueued through the conversion fallback even though it fails
is_url_ok_to_follow, and the crawl later dequeues and fetches it. -/
theorem mailto_enqueued_and_fetched :
    go c2Fetch [] 3 6 = .ok c2Final ∧
    "mailto:a@b.c" ∈ c2Final.enqueuedLog ∧
    "mailto:a@b.c" ∈ c2Final.fetchLog ∧
    is_url_ok_to_follow "mailto:a@b.c" DOMAIN = false := by
  refine ⟨by rfl, by decide, by decide, by decide⟩

def c2Mid : CrawlState :=
  { queue := ["https://educacionvirtual.javeriana.edu.co/cursos/", "mailto:a@b.c"],
    visited := [START_URL], index := [], course_urls := [],
    enqueuedLog := ["https://educacionvirtual.javeriana.edu.co/cursos/", "mailto:a@b.c"],
    fetchLog := [START_URL] }

/-- Witness for the amended claim C2 at a concrete run. -/
theorem enqueued_ok_or_fallback_witness :
    (go c2Fetch [] 1 3 = .ok c2Mid) ∧ ("mailto:a@b.c" ∈ c2Mid.enqueuedLog) ∧
    (is_url_ok_to_follow "mailto:a@b.c" DOMAIN = true ∨
      ∃ base s p, base ∈ c2Mid.visited ∧ c2Fetch base = FetchResult.response s p ∧
        ∃ href ∈ p.links,
          is_url_ok_to_follow (urljoin base href) DOMAIN = false ∧
          convert_if_relative_url base (urljoin base href) = some "mailto:a@b.c") := by
  have h : go c2Fetch [] 1 3 = .ok c2Mid := by rfl
  exact ⟨h, by decide, enqueued_ok_or_fallback h "mailto:a@b.c" (by decide)⟩

/-! ## Round trip of the pipe-delimited index file (claim C5) -/

theorem hasKey_append_single {α : Type} (acc : List (String × α)) (cid k : String) (v : α) :
    hasKey (acc ++ [(cid, v)]) k = (hasKey acc k || (cid == k)) := by
  simp [hasKey, List.any_append]

theorem updateEntry_updateEntry {α : Type} (l : List (String × α)) (k : String)
    (f g : α → α) :
    updateEntry (updateEntry l k f) k g = updateEntry l k (fun v => g (f v)) := by
  induction l with
  | nil => rfl
  | cons p rest ih =>
    obtain ⟨ka, va⟩ := p
    by_cases hk : (ka == k) = true
    · simp [updateEntry, hk]
    · have hk2 : (ka == k) = false := by simpa using hk
      simp [updateEntry, hk2, ih]

theorem updateEntry_id {α : Type} (l : List (String × α)) (k : String) :
    updateEntry l k (fun v => v) = l := by
  induction l with
  | nil => rfl
  | cons p rest ih =>
    obtain ⟨ka, va⟩ := p
    by_cases hk : (ka == k) = true
    · simp [updateEntry, hk]
    · have hk2 : (ka == k) = false := by simpa using hk
      simp [updateEntry, hk2, ih]

theorem updateEntry_append_new {α : Type} (acc : List (String × α)) (cid : String)
    (v : α) (f : α → α) (hnk : hasKey acc cid = false) :
    updateEntry (acc ++ [(cid, v)]) cid f = acc ++ [(cid, f v)] := by
  induction acc with
  | nil => simp [updateEntry]
  | cons p rest ih =>
    obtain ⟨ka, va⟩ := p
    rw [hasKey, List.any_cons] at hnk
    rw [Bool.or_eq_false_iff] at hnk
    have h2 : hasKey rest cid = false := hnk.2
    simp [updateEntry, hnk.1, ih h2]

theorem loadRows_known (cid : String) :
    ∀ (ws : List String) (rest : List (List String)) (acc : Index),
      hasKey acc cid = true →
      loadRows ((ws.map fun w => [cid, w]) ++ rest) acc =
        loadRows rest (updateEntry acc cid (fun v => v ++ ws)) := by
  intro ws
  induction ws with
  | nil =>
    intro rest acc _
    have he : (fun v : List String => v ++ ([] : List String)) = (fun v => v) := by
      funext v
      simp
    rw [List.map_nil, List.nil_append, he, updateEntry_id]
  | cons w ws2 ih =>
    intro rest acc hk
    rw [List.map_cons, List.cons_append]
    show loadRows ((ws2.map fun w2 => [cid, w2]) ++ rest) (addLoadedWord acc cid w) = _
    rw [show addLoadedWord acc cid w = updateEntry acc cid (fun v => v ++ [w]) from by
      simp [addLoadedWord, hk]]
    rw [ih rest _ (by rw [hasKey_updateEntry]; exact hk)]
    rw [updateEntry_updateEntry]
    have he : (fun v : List String => (v ++ [w]) ++ ws2) = (fun v => v ++ w :: ws2) := by
      funext v
      simp
    rw [he]

theorem loadRows_rowsOf :
    ∀ (idx : Index) (acc : Index), (idx.map Prod.fst).Nodup →
      (∀ p ∈ idx, p.2 ≠ []) → (∀ p ∈ idx, hasKey acc p.1 = false) →
      loadRows (idx.flatMap fun p => p.2.map fun w => [p.1, w]) acc = .ok (acc ++ idx) := by
  intro idx
  induction idx with
  | nil =>
    intro acc _ _ _
    simp [loadRows]
  | cons e rest ih =>
    obtain ⟨cid, ws⟩ := e
    intro acc hnd hne hdisj
    have hws : ws ≠ [] := hne (cid, ws) (by simp)
    cases ws with
    | nil => exact absurd rfl hws
    | cons w ws2 =>
      have hk0 : hasKey acc cid = false := hdisj (cid, w :: ws2) (by simp)
      rw [List.flatMap_cons, List.map_cons, List.cons_append]
      show loadRows ((ws2.map fun w2 => [cid, w2]) ++
        rest.flatMap fun p => p.2.map fun w2 => [p.1, w2]) (addLoadedWord acc cid w) = _
      rw [show addLoadedWord acc cid w = acc ++ [(cid, [w])] from by
        simp [addLoadedWord, hk0]]
      rw [loadRows_known cid ws2 _ _ (by simp [hasKey_append_single])]
      rw [updateEntry_append_new acc cid [w] _ hk0]
      have hcid : cid ∉ rest.map Prod.fst := by
        rw [List.map_cons, List.nodup_cons] at hnd
        exact hnd.1
      have hres := ih (acc ++ [(cid, [w] ++ ws2)])
        (by rw [List.map_cons, List.nodup_cons] at hnd; exact hnd.2)
        (fun p hp => hne p (List.mem_cons_of_mem _ hp))
        (by
          intro p hp
          rw [hasKey_append_single]
          have hd : hasKey acc p.1 = false := hdisj p (List.mem_cons_of_mem _ hp)
          have hne2 : (cid == p.1) = false := by
            refine beq_eq_false_iff_ne.mpr ?_
            intro hcp
            exact hcid (hcp ▸ List.mem_map_of_mem Prod.fst hp)
          simp [hd, hne2])
      rw [hres, List.append_assoc]
      rfl

/-- Claim C5 (amended).  Writing the index in the pipe-delimited format and
reloading it with load_index reproduces the mapping exactly — identifiers,
word sets and even order — provided every identifier has at least one word.
(The counterexample shows an identifier whose word list is empty occupies no
row and is silently dropped by the reload, so the original claim fails.) -/
theorem write_load_roundtrip (idx : Index) (h1 : (idx.map Prod.fst).Nodup)
    (h2 : ∀ p ∈ idx, p.2 ≠ []) : load_index (writeIndex idx) = .ok idx := by
  show loadRows (idx.flatMap fun p => p.2.map fun w => [p.1, w]) [] = .ok idx
  have h := loadRows_rowsOf idx [] h1 h2 (fun p _ => rfl)
  simpa using h

/-- Claim C5 (counterexample).  A course whose word list is empty (which
build_index can produce: the entry is created before any word is appended)
writes no data row, so the reloaded index has lost the identifier: the
round trip does not preserve the set of identifiers. -/
theorem empty_course_lost_roundtrip :
    load_index (writeIndex [("C1", [])]) = .ok ([] : Index) ∧
    hasKey [("C1", ([] : List String))] "C1" = true ∧
    hasKey ([] : Index) "C1" = false :=
  ⟨by rfl, by decide, by decide⟩

/-- Witness for the amended claim C5 at a concrete index. -/
theorem write_load_roundtrip_witness :
    ((([("C1", ["a", "b"]), ("C2", ["b"])] : Index).map Prod.fst).Nodup) ∧
    (∀ p ∈ ([("C1", ["a", "b"]), ("C2", ["b"])] : Index), p.2 ≠ []) ∧
    load_index (writeIndex [("C1", ["a", "b"]), ("C2", ["b"])]) =
      .ok [("C1", ["a", "b"]), ("C2", ["b"])] := by
  refine ⟨by decide, by decide, ?_⟩
  exact write_load_roundtrip _ (by decide) (by decide)

/-! ## Search (claims C6 and C7) -/

theorem lookupAll_isSome {urls : Urls} :
    ∀ {l : List (String × Nat)}, (∀ p ∈ l, (urls.lookup p.1).isSome) →
      ∃ r, lookupAll urls l = some r := by
  intro l
  induction l with
  | nil => intro _; exact ⟨[], rfl⟩
  | cons p rest ih =>
    intro hall
    have hp := hall p (by simp)
    cases hl : urls.lookup p.1 with
    | none => rw [hl] at hp; simp at hp
    | some v =>
      obtain ⟨r, hr⟩ := ih (fun q hq => hall q (by simp [hq]))
      refine ⟨v :: r, ?_⟩
      simp only [lookupAll, hl, hr]

theorem lookupAll_eq_none_iff {urls : Urls} :
    ∀ {l : List (String × Nat)},
      lookupAll urls l = none ↔ ∃ p ∈ l, urls.lookup p.1 = none := by
  intro l
  induction l with
  | nil => simp [lookupAll]
  | cons p rest ih =>
    simp only [lookupAll]
    cases hl : urls.lookup p.1 with
    | none =>
      constructor
      · intro _
        exact ⟨p, by simp, hl⟩
      · intro _
        rfl
    | some v =>
      cases hr : lookupAll urls rest with
      | none =>
        constructor
        · intro _
          obtain ⟨q, hq, hqn⟩ := ih.mp hr
          exact ⟨q, by simp [hq], hqn⟩
        · intro _
          rfl
      | some vs =>
        constructor
        · intro hcon
          exact Option.noConfusion hcon
        · rintro ⟨q, hq, hqn⟩
          rcases List.mem_cons.mp hq with rfl | hq2
          · rw [hl] at hqn
            exact Option.noConfusion hqn
          · have hn : lookupAll urls rest = none := ih.mpr ⟨q, hq2, hqn⟩
            rw [hr] at hn
            exact Option.noConfusion hn

theorem matchedCourses_pos {kws : List String} {idx : Index} :
    ∀ q ∈ matchedCourses kws idx, 0 < q.2 := by
  intro q hq
  simp only [matchedCourses, List.mem_filterMap] at hq
  obtain ⟨p, _, heq⟩ := hq
  by_cases h0 : 0 < ((kws.map lowerStr).dedup.filter fun k => p.2.contains k).length
  · rw [if_pos h0] at heq
    injection heq with h2
    rw [← h2]
    exact h0
  · rw [if_neg h0] at heq
    exact Option.noConfusion heq

theorem matchedCourses_nil (idx : Index) : matchedCourses [] idx = [] := by
  induction idx with
  | nil => rfl
  | cons p rest ih =>
    simp only [matchedCourses, List.filterMap_cons] at ih ⊢
    simp [ih]

/-- Claim C6.  Whenever every matched identifier has a URL-map entry, search
returns normally, and its output is exactly the URLs of the identifiers
whose word set meets the lowercased, deduplicated keyword set (all with
positive overlap), listed in an order that sorts the intersection sizes
descendingly; an empty keyword list yields the empty result. -/
theorem search_ranking (kws : List String) (idx : Index) (urls : Urls)
    (h : ∀ p ∈ matchedCourses kws idx, (urls.lookup p.1).isSome) :
    ∃ l r, l.Perm (matchedCourses kws idx) ∧
      l.Pairwise (fun a b => b.2 ≤ a.2) ∧
      (∀ q ∈ l, 0 < q.2) ∧
      lookupAll urls l = some r ∧
      search kws idx urls = .ok r ∧
      (kws = [] → r = []) := by
  have hperm := List.perm_insertionSort (fun a b : String × Nat => b.2 ≤ a.2)
    (matchedCourses kws idx)
  haveI : IsTotal (String × Nat) (fun a b => b.2 ≤ a.2) := ⟨fun a b => le_total b.2 a.2⟩
  haveI : IsTrans (String × Nat) (fun a b => b.2 ≤ a.2) :=
    ⟨fun _ _ _ hab hbc => le_trans hbc hab⟩
  have hsorted := List.sorted_insertionSort (fun a b : String × Nat => b.2 ≤ a.2)
    (matchedCourses kws idx)
  have hall : ∀ p ∈ List.insertionSort (fun a b : String × Nat => b.2 ≤ a.2)
      (matchedCourses kws idx), (urls.lookup p.1).isSome :=
    fun p hp => h p (hperm.subset hp)
  obtain ⟨r, hr⟩ := lookupAll_isSome hall
  refine ⟨_, r, hperm, hsorted, ?_, hr, ?_, ?_⟩
  · intro q hq
    exact matchedCourses_pos q (hperm.subset hq)
  · simp only [search, hr]
  · intro hk
    subst hk
    have hm := matchedCourses_nil idx
    have hlnil : List.insertionSort (fun a b : String × Nat => b.2 ≤ a.2)
        (matchedCourses [] idx) = [] := by rw [hm]; rfl
    rw [hlnil] at hr
    injection hr with h2
    exact h2.symm

/-- Claim C7.  search raises (the KeyError of the URL lookup) exactly when
some matched identifier is missing from the URL map; when every matched
identifier has an entry it returns normally — a missing entry is surfaced,
never silently dropped. -/
theorem search_missing_url (kws : List String) (idx : Index) (urls : Urls) :
    (search kws idx urls = .error () ↔
      ∃ p ∈ matchedCourses kws idx, urls.lookup p.1 = none) ∧
    ((∀ p ∈ matchedCourses kws idx, (urls.lookup p.1).isSome) →
      ∃ r, search kws idx urls = .ok r) := by
  have hperm := List.perm_insertionSort (fun a b : String × Nat => b.2 ≤ a.2)
    (matchedCourses kws idx)
  constructor
  · constructor
    · intro herr
      simp only [search] at herr
      cases hr : lookupAll urls (List.insertionSort (fun a b : String × Nat => b.2 ≤ a.2)
          (matchedCourses kws idx)) with
      | some v => rw [hr] at herr; exact Except.noConfusion herr
      | none =>
        obtain ⟨p, hp, hpn⟩ := lookupAll_eq_none_iff.mp hr
        exact ⟨p, hperm.subset hp, hpn⟩
    · rintro ⟨p, hp, hpn⟩
      have hp2 := hperm.mem_iff.mpr hp
      have hnone : lookupAll urls (List.insertionSort (fun a b : String × Nat => b.2 ≤ a.2)
          (matchedCourses kws idx)) = none := lookupAll_eq_none_iff.mpr ⟨p, hp2, hpn⟩
      simp only [search, hnone]
  · intro hall
    obtain ⟨r, hr⟩ := lookupAll_isSome (fun p hp => hall p (hperm.subset hp))
    refine ⟨r, ?_⟩
    simp only [search, hr]

/-- Witness for claim C6 at the ranking example of the specification:
C2 (two keyword hits) is returned before C1 (one hit). -/
theorem search_ranking_witness :
    (∀ p ∈ matchedCourses ["x", "y"] [("C1", ["x"]), ("C2", ["x", "y"])],
      ((([("C1", "u1"), ("C2", "u2")] : Urls)).lookup p.1).isSome) ∧
    (∃ l r, l.Perm (matchedCourses ["x", "y"] [("C1", ["x"]), ("C2", ["x", "y"])]) ∧
      l.Pairwise (fun a b => b.2 ≤ a.2) ∧
      (∀ q ∈ l, 0 < q.2) ∧
      lookupAll [("C1", "u1"), ("C2", "u2")] l = some r ∧
      search ["x", "y"] [("C1", ["x"]), ("C2", ["x", "y"])] [("C1", "u1"), ("C2", "u2")] =
        .ok r ∧
      (["x", "y"] = ([] : List String) → r = [])) ∧
    search ["x", "y"] [("C1", ["x"]), ("C2", ["x", "y"])] [("C1", "u1"), ("C2", "u2")] =
      .ok ["u2", "u1"] := by
  refine ⟨by decide, ?_, by rfl⟩
  exact search_ranking ["x", "y"] [("C1", ["x"]), ("C2", ["x", "y"])]
    [("C1", "u1"), ("C2", "u2")] (by decide)

/-- Witness for claim C7 at concrete inputs: with the URL entry present the
search returns normally, and with the map emptied it errors. -/
theorem search_missing_url_witness :
    (∀ p ∈ matchedCourses ["x"] [("C1", ["x"])],
      ((([("C1", "u1")] : Urls)).lookup p.1).isSome) ∧
    (∃ r, search ["x"] [("C1", ["x"])] [("C1", "u1")] = .ok r) ∧
    search ["x"] [("C1", ["x"])] ([] : Urls) = .error () := by
  refine ⟨by decide, ?_, by rfl⟩
  exact (search_missing_url ["x"] [("C1", ["x"])] [("C1", "u1")]).2 (by decide)

end CourseCrawler
